import Mathlib

/-!
Verification of the prioritized space-time MAPF planner.

This file is a shallow embedding of the planner's core:
* `environment.py`: `Position`, `Environment.get_valid_moves`,
  `Environment.manhattan_distance`, `Environment.heuristic`,
  `Environment.is_valid_position` (the grid is the fixed 2 x 5
  corridor/room layout, `GRID_WIDTH = 5`, `GRID_HEIGHT = 2`).
* `solver.py`: `AStarNode` (whose `__lt__` compares only `f_cost`),
  `SpaceTimeAStar.find_path`, `SpaceTimeAStar._has_collision`, and
  `MAPFSolver.solve_multi_robot_path`.
* `demo.py`: `ReservationTable` with `is_vertex_free`, `is_edge_free`
  and `reserve_path`.

Modelling conventions:
* Python ints are embedded as `Int` (grid coordinates, agent ids,
  priorities, reservation times).  Path costs (`g_cost`, `f_cost`) are
  floats in Python but only ever hold non-negative integers (every move
  cost is the literal `1` and the heuristic is a sum of absolute values
  of ints), so they are embedded as `Nat`; the ordering used by the
  search is unchanged.
* `heapq` is embedded as a list kept sorted by the node comparison
  `AStarNode.__lt__` (which compares only `f_cost`); `heappush` inserts
  a node after all nodes with `f_cost` less than or equal to its own,
  and `heappop` takes the head.  This realizes exactly the min-heap
  contract (`heappop` returns a minimal element under `__lt__`); for
  the two-element heaps appearing in concrete statements below it
  agrees with CPython's `heapq` step by step.
* The `while open_set:` loop of `find_path` is embedded with an
  explicit fuel parameter.  The Python loop always terminates, and its
  result equals the embedding's result for every sufficiently large
  fuel; all safety theorems below are proved for every fuel.
* Python dicts that are only read through key lookup (the `paths`
  result of `solve_multi_robot_path`, the `goals` argument) are
  embedded as association lists consed at the front (later assignment
  to the same key shadows the earlier one, matching dict overwrite) and
  as `Int → Option Position` respectively.  The `defaultdict`-of-dict
  reservation tables of `demo.py` are embedded as total functions
  returning `Option` agent ids.
-/

/-- `environment.Position`: a (row, col) grid coordinate. -/
structure Position where
  row : Int
  col : Int
deriving DecidableEq, Repr

/-- `Environment.is_valid_position`: inside the 2 x 5 grid. -/
def isValidPosition (pos : Position) : Bool :=
  decide (0 ≤ pos.row ∧ pos.row < 2 ∧ 0 ≤ pos.col ∧ pos.col < 5)

/-- `Environment.get_valid_moves`: corridor cells (row 1) offer left /
right (bounds permitting), up into the room above, and wait; room cells
(row 0) offer down into the corridor and wait.  Every cost is 1
(`self.width - 1 = 4`). -/
def getValidMoves (pos : Position) : List (Position × Nat) :=
  if pos.row = 1 then
    (if 0 < pos.col then [(⟨1, pos.col - 1⟩, 1)] else []) ++
    (if pos.col < 4 then [(⟨1, pos.col + 1⟩, 1)] else []) ++
    [(⟨0, pos.col⟩, 1), (⟨1, pos.col⟩, 1)]
  else if pos.row = 0 then
    [(⟨1, pos.col⟩, 1), (⟨0, pos.col⟩, 1)]
  else []

/-- `Environment.manhattan_distance`. -/
def manhattanDistance (pos1 pos2 : Position) : Nat :=
  (pos1.row - pos2.row).natAbs + (pos1.col - pos2.col).natAbs

/-- `Environment.heuristic`: for room goals (row 0), horizontal corridor
distance plus 1 or 2 room-access steps; otherwise Manhattan distance. -/
def heuristic (current goal : Position) : Nat :=
  if goal.row = 0 then
    (current.col - goal.col).natAbs + (if current.row = 0 then 1 else 2)
  else manhattanDistance current goal

/-- `reachIn n p g` holds iff `g` is reachable from `p` in at most `n`
moves of `Environment.get_valid_moves`.  Since every generated move has
cost 1 (`getValidMoves_cost_one`), the true minimal cost of reaching
`g` from `p` is the least such `n`. -/
def reachIn : Nat → Position → Position → Bool
  | 0, p, g => p == g
  | n + 1, p, g => p == g || (getValidMoves p).any fun m => reachIn n m.1 g

/-- Every move generated by `get_valid_moves` has cost exactly 1, so
step counts and accumulated costs coincide. -/
theorem getValidMoves_cost_one (p : Position) (q : Position) (c : Nat)
    (h : (q, c) ∈ getValidMoves p) : c = 1 := by
  unfold getValidMoves at h
  split_ifs at h <;>
    (try simp only [List.cons_append, List.nil_append, List.singleton_append,
      List.append_nil, List.not_mem_nil] at h) <;>
    fin_cases h <;> rfl

/-- `Environment.heuristic` is consistent with the edge costs of
`Environment.get_valid_moves`: along every generated move the heuristic
drops by at most the move cost. -/
theorem heuristic_consistent (p g q : Position) (c : Nat)
    (h : (q, c) ∈ getValidMoves p) : heuristic p g ≤ c + heuristic q g := by
  unfold getValidMoves at h
  split_ifs at h <;>
    (try simp only [List.cons_append, List.nil_append, List.singleton_append,
      List.append_nil, List.not_mem_nil] at h) <;>
    fin_cases h <;>
    (simp [heuristic, manhattanDistance]; split_ifs <;> omega)

/-- At the goal itself the heuristic is at most 1 (it is exactly 1 for
room goals and 0 for corridor goals). -/
theorem heuristic_self_le_one (g : Position) : heuristic g g ≤ 1 := by
  simp [heuristic, manhattanDistance]
  split_ifs <;> omega

/-- C3, counterexample.  The claim states the heuristic never exceeds
the true minimal cost and that `heuristic g g = 0`.  At the valid
corridor position (1, 0) with the valid room goal (0, 0) the true cost
is 1 (a single up-move reaches the room), but the heuristic returns 2:
it overestimates, so it is not admissible. -/
theorem c3_heuristic_not_admissible :
    isValidPosition ⟨1, 0⟩ = true ∧ isValidPosition ⟨0, 0⟩ = true ∧
    reachIn 1 ⟨1, 0⟩ ⟨0, 0⟩ = true ∧
    heuristic ⟨1, 0⟩ ⟨0, 0⟩ = 2 ∧ ¬ heuristic ⟨1, 0⟩ ⟨0, 0⟩ ≤ 1 := by
  decide

/-- C3, amended.  The heuristic is consistent with the edge costs of
`get_valid_moves`, and although it can overestimate the true minimal
cost, it does so by at most 1: whenever the goal is reachable in `n`
unit-cost moves, `heuristic p g ≤ n + 1`.  (It is non-negative by its
`Nat` codomain.) -/
theorem c3_heuristic_consistent_and_quasi_admissible :
    (∀ p g q c, (q, c) ∈ getValidMoves p → heuristic p g ≤ c + heuristic q g) ∧
    (∀ p g n, reachIn n p g = true → heuristic p g ≤ n + 1) := by
  refine ⟨heuristic_consistent, ?_⟩
  intro p g n
  induction n generalizing p with
  | zero =>
    intro h
    rw [show reachIn 0 p g = (p == g) from rfl, beq_iff_eq] at h
    subst h
    exact heuristic_self_le_one p
  | succ n ih =>
    intro h
    rw [show reachIn (n + 1) p g = (p == g || (getValidMoves p).any fun m => reachIn n m.1 g)
      from rfl, Bool.or_eq_true, beq_iff_eq, List.any_eq_true] at h
    rcases h with rfl | ⟨m, hm, hr⟩
    · exact le_trans (heuristic_self_le_one p) (by omega)
    · have h1 := heuristic_consistent p g m.1 m.2 (by simpa using hm)
      have h2 := getValidMoves_cost_one p m.1 m.2 (by simpa using hm)
      have h3 := ih m.1 hr
      omega

/-- Witness for `c3_heuristic_consistent_and_quasi_admissible` at the
concrete move (1,0) → (0,0) and the concrete reachability bound. -/
theorem c3_amended_witness :
    heuristic ⟨1, 0⟩ ⟨0, 0⟩ ≤ 1 + heuristic ⟨0, 0⟩ ⟨0, 0⟩ ∧
    heuristic ⟨1, 0⟩ ⟨0, 0⟩ ≤ 1 + 1 :=
  ⟨c3_heuristic_consistent_and_quasi_admissible.1 ⟨1, 0⟩ ⟨0, 0⟩ ⟨0, 0⟩ 1 (by decide),
   c3_heuristic_consistent_and_quasi_admissible.2 ⟨1, 0⟩ ⟨0, 0⟩ 1 (by decide)⟩

/-- `solver.AStarNode`: a space-time search node.  `path` is the list of
positions strictly before `position` (so the node's trajectory is
`path ++ [position]`), exactly as in the Python dataclass. -/
structure AStarNode where
  position : Position
  time : Nat
  g_cost : Nat
  f_cost : Nat
  path : List Position
deriving DecidableEq, Repr

/-- `AStarNode.__lt__` compares only `f_cost`. -/
def nodeLt (a b : AStarNode) : Bool :=
  a.f_cost < b.f_cost

/-- `heapq.heappush` under `AStarNode.__lt__`: the node is inserted
after every node not greater than it, so the heap stays sorted by
`f_cost` and ties are kept in insertion order. -/
def heapPush (n : AStarNode) : List AStarNode → List AStarNode
  | [] => [n]
  | m :: t => if nodeLt n m then n :: m :: t else m :: heapPush n t

/-- `heapq.heappop`: the minimum element and the remaining heap. -/
def heapPop : List AStarNode → Option (AStarNode × List AStarNode)
  | [] => none
  | m :: t => some (m, t)

/-- `SpaceTimeAStar._has_collision`: vertex collision if some other
path occupies `next_pos` at `next_time`; edge collision if some other
path traverses the reverse edge during the same step.  The Python
bounds checks `next_time < len(other_path)` and
`next_time - 1 < len(other_path)` are folded into the `Option`-valued
indexing `q[t]?` / `q[t-1]?`. -/
def hasCollision (currentPos nextPos : Position) (nextTime : Nat)
    (otherRobotPaths : List (List Position)) : Bool :=
  otherRobotPaths.any fun q =>
    (q[nextTime]? == some nextPos) ||
    (decide (0 < nextTime) && (q[nextTime]? == some currentPos) &&
      (q[nextTime - 1]? == some nextPos))

/-- Neighbor expansion of `find_path`: for every move from the current
node's position, skip it on a collision with the other robots' paths or
when the successor state is already closed, otherwise build the
successor node with accumulated `g` and `f = g + h`. -/
def expandChildren (goal : Position) (otherRobotPaths : List (List Position))
    (current : AStarNode) (closedSet2 : List (Position × Nat)) : List AStarNode :=
  (getValidMoves current.position).filterMap fun mc =>
    if hasCollision current.position mc.1 (current.time + 1) otherRobotPaths then
      none
    else if (mc.1, current.time + 1) ∈ closedSet2 then none
    else some (AStarNode.mk mc.1 (current.time + 1) (current.g_cost + mc.2)
      (current.g_cost + mc.2 + heuristic mc.1 goal)
      (current.path ++ [current.position]))

/-- The body of `find_path`'s `while open_set:` loop, with explicit
fuel.  Pops a node; returns its trajectory if it sits on the goal;
skips states already closed; stops expanding past `max_time`; otherwise
pushes every expanded child. -/
def findPathLoop (goal : Position) (otherRobotPaths : List (List Position))
    (maxTime : Nat) :
    Nat → List AStarNode → List (Position × Nat) → List Position
  | 0, _, _ => []
  | fuel + 1, openSet, closedSet =>
    match heapPop openSet with
    | none => []
    | some (current, rest) =>
      if current.position = goal then current.path ++ [current.position]
      else if (current.position, current.time) ∈ closedSet then
        findPathLoop goal otherRobotPaths maxTime fuel rest closedSet
      else
        let closedSet2 := (current.position, current.time) :: closedSet
        if maxTime ≤ current.time then
          findPathLoop goal otherRobotPaths maxTime fuel rest closedSet2
        else
          findPathLoop goal otherRobotPaths maxTime fuel
            ((expandChildren goal otherRobotPaths current closedSet2).foldl
              (fun h n => heapPush n h) rest) closedSet2

/-- `SpaceTimeAStar.find_path`: starts from the single start node (g =
0, f = h(start)), returns `[]` when no path is found. -/
def findPath (start goal : Position) (otherRobotPaths : List (List Position))
    (maxTime : Nat) (fuel : Nat) : List Position :=
  findPathLoop goal otherRobotPaths maxTime fuel
    [AStarNode.mk start 0 0 (heuristic start goal) []] []

/-- C10.  A search whose start equals its goal succeeds immediately:
the start node is popped first and the goal test precedes every
collision check, so `find_path(g, g, other_robot_paths, max_time)`
returns `[g]` for every obstacle list and every `max_time`, even when
another robot's path occupies `g` at time 0. -/
theorem findPath_start_eq_goal (g : Position)
    (otherRobotPaths : List (List Position)) (maxTime : Nat) (fuel : Nat)
    (hfuel : 0 < fuel) :
    findPath g g otherRobotPaths maxTime fuel = [g] := by
  cases fuel with
  | zero => omega
  | succ n => simp [findPath, findPathLoop, heapPop]

/-- Witness for `findPath_start_eq_goal`: the goal cell is occupied by
another robot at time 0 and the horizon is 0, yet the search returns
the one-step path. -/
theorem findPath_start_eq_goal_witness :
    findPath ⟨1, 0⟩ ⟨1, 0⟩ [[⟨1, 0⟩]] 0 1 = [⟨1, 0⟩] :=
  findPath_start_eq_goal ⟨1, 0⟩ [[⟨1, 0⟩]] 0 1 (by decide)

/-- C4, counterexample.  The claim states every obstacle path is
treated as extending its last position forever, so a move into its
final cell at any time `t ≥ len(Q)` is rejected.  In the code the
vertex check requires `next_time < len(other_path)`: with the finished
path `Q = [(1,1)]`, moving into `(1,1)` at time `1 ≥ len(Q)` raises no
collision, and `find_path` happily plans straight through the finished
robot's cell. -/
theorem c4_no_implicit_path_extension :
    hasCollision ⟨1, 0⟩ ⟨1, 1⟩ 1 [[⟨1, 1⟩]] = false ∧
    findPath ⟨1, 0⟩ ⟨0, 1⟩ [[⟨1, 1⟩]] 50 10 = [⟨1, 0⟩, ⟨1, 1⟩, ⟨0, 1⟩] := by
  decide

/-- C4, amended.  An obstacle path constrains the search only at times
below its length: at any time `t` at or past the end of every obstacle
path, no move whatsoever is rejected — in particular a finished agent
does not block its final cell.  (Idle agents are instead approximated
by explicit 20-step stationary paths built in
`MAPFSimulator._get_other_robot_paths`.) -/
theorem c4_amended_no_collision_past_path_end
    (currentPos nextPos : Position) (t : Nat)
    (otherRobotPaths : List (List Position))
    (h : ∀ q ∈ otherRobotPaths, q.length ≤ t) :
    hasCollision currentPos nextPos t otherRobotPaths = false := by
  rw [hasCollision, List.any_eq_false]
  intro q hq
  have hnone : q[t]? = none := List.getElem?_eq_none (h q hq)
  simp [hnone]

/-- Witness for `c4_amended_no_collision_past_path_end` at the concrete
finished path. -/
theorem c4_amended_witness :
    hasCollision ⟨1, 0⟩ ⟨1, 1⟩ 1 [[⟨1, 1⟩]] = false :=
  c4_amended_no_collision_past_path_end ⟨1, 0⟩ ⟨1, 1⟩ 1 [[⟨1, 1⟩]] (by decide)

/-- Elements of a `heapPush` are the pushed node plus the old heap. -/
theorem mem_heapPush {x n : AStarNode} {h : List AStarNode} :
    x ∈ heapPush n h ↔ x = n ∨ x ∈ h := by
  induction h with
  | nil => simp [heapPush]
  | cons m t ih =>
    rw [heapPush]
    split
    · simp [List.mem_cons]
    · simp only [List.mem_cons, ih]
      tauto

/-- `heapPush` preserves sortedness by `f_cost`. -/
theorem sortedF_heapPush {n : AStarNode} {h : List AStarNode}
    (hs : h.Pairwise fun u v => u.f_cost ≤ v.f_cost) :
    (heapPush n h).Pairwise fun u v => u.f_cost ≤ v.f_cost := by
  induction h with
  | nil => simp [heapPush]
  | cons m t ih =>
    rw [List.pairwise_cons] at hs
    rw [heapPush]
    split
    · next hlt =>
      rw [nodeLt, decide_eq_true_eq] at hlt
      refine List.pairwise_cons.mpr ⟨?_, List.pairwise_cons.mpr hs⟩
      intro y hy
      rcases List.mem_cons.mp hy with rfl | hy
      · omega
      · have := hs.1 y hy
        omega
    · next hge =>
      rw [nodeLt, decide_eq_true_eq] at hge
      refine List.pairwise_cons.mpr ⟨?_, ih hs.2⟩
      intro y hy
      rcases mem_heapPush.mp hy with rfl | hy
      · omega
      · exact hs.1 y hy

/-- Folding `heapPush` over a list preserves sortedness and collects
exactly the pushed nodes plus the initial heap. -/
theorem foldl_heapPush_sorted_mem (ns : List AStarNode) (h0 : List AStarNode)
    (hs : h0.Pairwise fun u v => u.f_cost ≤ v.f_cost) :
    (ns.foldl (fun h n => heapPush n h) h0).Pairwise
      (fun u v => u.f_cost ≤ v.f_cost) ∧
    ∀ y, y ∈ ns.foldl (fun h n => heapPush n h) h0 ↔ y ∈ ns ∨ y ∈ h0 := by
  induction ns generalizing h0 with
  | nil => simpa using hs
  | cons n t ih =>
    obtain ⟨hs2, hmem⟩ := ih (heapPush n h0) (sortedF_heapPush hs)
    refine ⟨hs2, fun y => ?_⟩
    rw [List.foldl_cons, hmem, mem_heapPush]
    simp only [List.mem_cons]
    tauto

/-- C9, counterexample.  `AStarNode.__lt__` compares only `f_cost`, so
ties are broken by heap order, not by `g_cost` or position: pushing a
node with `f = 7, g = 5` and then one with `f = 7, g = 3` (and smaller
coordinates) pops the *first* node, although the claim says the
tie-break-preferred second node (smaller `g`) must pop first.  (For a
two-element heap CPython's `heapq` performs exactly these comparisons.) -/
theorem c9_no_tie_break :
    heapPop (heapPush (AStarNode.mk ⟨0, 0⟩ 1 3 7 [])
        (heapPush (AStarNode.mk ⟨1, 0⟩ 1 5 7 []) [])) =
      some (AStarNode.mk ⟨1, 0⟩ 1 5 7 [],
        [AStarNode.mk ⟨0, 0⟩ 1 3 7 []]) ∧
    (AStarNode.mk ⟨1, 0⟩ 1 5 7 []).f_cost =
      (AStarNode.mk ⟨0, 0⟩ 1 3 7 []).f_cost ∧
    (AStarNode.mk ⟨0, 0⟩ 1 3 7 []).g_cost <
      (AStarNode.mk ⟨1, 0⟩ 1 5 7 []).g_cost := by
  decide

/-- C9, amended.  The open set is a min-priority structure ordered by
`f_cost` alone: whatever nodes have been pushed, the popped node has
minimal `f_cost` among them.  No `g_cost` or position tie-break exists
(`AStarNode.__lt__` inspects only `f_cost`); equal-`f` nodes pop in
heap order. -/
theorem c9_amended_pop_min_f (ns : List AStarNode) (x : AStarNode)
    (rest : List AStarNode)
    (hpop : heapPop (ns.foldl (fun h n => heapPush n h) []) = some (x, rest)) :
    ∀ y ∈ ns, x.f_cost ≤ y.f_cost := by
  obtain ⟨hs, hmem⟩ := foldl_heapPush_sorted_mem ns [] (by simp)
  intro y hy
  have hy2 : y ∈ ns.foldl (fun h n => heapPush n h) [] := (hmem y).mpr (Or.inl hy)
  cases hfold : ns.foldl (fun h n => heapPush n h) [] with
  | nil => rw [hfold] at hy2; simp at hy2
  | cons m t =>
    rw [hfold] at hpop hy2 hs
    rw [heapPop] at hpop
    obtain ⟨rfl, rfl⟩ : m = x ∧ t = rest := by
      constructor <;> { injection hpop with h1; cases h1; rfl }
    rcases List.mem_cons.mp hy2 with rfl | hy3
    · omega
    · exact (List.pairwise_cons.mp hs).1 y hy3

/-- Witness for `c9_amended_pop_min_f` on a concrete two-node open
set. -/
theorem c9_amended_witness :
    (AStarNode.mk ⟨1, 0⟩ 1 5 7 []).f_cost ≤
      (AStarNode.mk ⟨0, 0⟩ 1 3 7 []).f_cost :=
  c9_amended_pop_min_f
    [AStarNode.mk ⟨1, 0⟩ 1 5 7 [], AStarNode.mk ⟨0, 0⟩ 1 3 7 []]
    (AStarNode.mk ⟨1, 0⟩ 1 5 7 []) [AStarNode.mk ⟨0, 0⟩ 1 3 7 []] (by decide)
    (AStarNode.mk ⟨0, 0⟩ 1 3 7 []) (by decide)

/-- A committed path is step-safe for an obstacle set when every move
it makes (into index `t`, at time `t`) passes `_has_collision`. -/
def pathStepsSafe (otherRobotPaths : List (List Position))
    (p : List Position) : Prop :=
  ∀ t, 1 ≤ t → t < p.length →
    hasCollision (p.getD (t - 1) ⟨0, 0⟩) (p.getD t ⟨0, 0⟩) t
      otherRobotPaths = false

/-- Invariant of every node in the open set: its trajectory
`path ++ [position]` starts at the search's start, has one entry per
timestep, and every step passed the collision check. -/
def nodeSafe (start : Position) (otherRobotPaths : List (List Position))
    (n : AStarNode) : Prop :=
  (n.path ++ [n.position]).head? = some start ∧
  (n.path ++ [n.position]).length = n.time + 1 ∧
  pathStepsSafe otherRobotPaths (n.path ++ [n.position])

/-- Membership in a fold of `heapPush`es. -/
theorem mem_foldl_heapPush {ns h0 : List AStarNode} {y : AStarNode} :
    y ∈ ns.foldl (fun h n => heapPush n h) h0 ↔ y ∈ ns ∨ y ∈ h0 := by
  induction ns generalizing h0 with
  | nil => simp
  | cons n t ih =>
    rw [List.foldl_cons, ih, mem_heapPush]
    simp only [List.mem_cons]
    tauto


/-- Extending a step-safe trajectory by one checked move keeps it
step-safe: old indices are untouched and the new index is exactly the
move that passed `_has_collision`. -/
theorem pathStepsSafe_snoc {otherRobotPaths : List (List Position)}
    (A : List Position) (x q : Position)
    (hsteps : pathStepsSafe otherRobotPaths (A ++ [x]))
    (hcol : hasCollision x q (A.length + 1) otherRobotPaths = false) :
    pathStepsSafe otherRobotPaths ((A ++ [x]) ++ [q]) := by
  intro t h1 h2
  simp only [List.length_append, List.length_cons, List.length_nil] at h2
  rcases Nat.lt_or_ge t (A.length + 1) with hlt | hge
  · have hb : (A ++ [x]).length = A.length + 1 := by simp
    have hb1 : t - 1 < (A ++ [x]).length := by omega
    have hb2 : t < (A ++ [x]).length := by omega
    rw [List.getD_append _ _ _ _ hb1, List.getD_append _ _ _ _ hb2]
    exact hsteps t h1 hb2
  · have ht : t = A.length + 1 := by omega
    have ht1 : t - 1 = A.length := by omega
    have e1 : ((A ++ [x]) ++ [q]).getD (t - 1) ⟨0, 0⟩ = x := by
      rw [ht1, List.getD_append _ _ _ _ (by simp), List.getD_eq_getElem _ _ (by simp)]
      exact List.getElem_concat_length A x A.length rfl _
    have e2 : ((A ++ [x]) ++ [q]).getD t ⟨0, 0⟩ = q := by
      rw [List.getD_eq_getElem _ _ (by simp; omega)]
      exact List.getElem_concat_length (A ++ [x]) q t (by simp; omega) _
    rw [e1, e2, ht]
    exact hcol

/-- Expanded children of a safe node are safe: the trajectory grows by
the move just checked against `_has_collision`. -/
theorem nodeSafe_expandChildren {start goal : Position}
    {otherRobotPaths : List (List Position)} {current : AStarNode}
    {closedSet2 : List (Position × Nat)} {n : AStarNode}
    (hcur : nodeSafe start otherRobotPaths current)
    (hn : n ∈ expandChildren goal otherRobotPaths current closedSet2) :
    nodeSafe start otherRobotPaths n := by
  obtain ⟨hhead, hlen, hsteps⟩ := hcur
  rw [expandChildren, List.mem_filterMap] at hn
  obtain ⟨mc, _, heq⟩ := hn
  split at heq
  · exact absurd heq (by simp)
  · split at heq
    · exact absurd heq (by simp)
    · next hcol _ =>
      obtain rfl : n = AStarNode.mk mc.1 (current.time + 1) (current.g_cost + mc.2)
          (current.g_cost + mc.2 + heuristic mc.1 goal)
          (current.path ++ [current.position]) := by
        injection heq with h
        exact h.symm
      rw [Bool.not_eq_true] at hcol
      have hPne : current.path ++ [current.position] ≠ [] := by simp
      have hAlen : current.path.length = current.time := by
        simp only [List.length_append, List.length_cons, List.length_nil] at hlen
        omega
      refine ⟨?_, ?_, ?_⟩
      · show ((current.path ++ [current.position]) ++ [mc.1]).head? = some start
        rw [List.head?_append_of_ne_nil _ hPne]
        exact hhead
      · show ((current.path ++ [current.position]) ++ [mc.1]).length = current.time + 1 + 1
        simp only [List.length_append, List.length_cons, List.length_nil]
        omega
      · show pathStepsSafe otherRobotPaths ((current.path ++ [current.position]) ++ [mc.1])
        refine pathStepsSafe_snoc current.path current.position mc.1 hsteps ?_
        rw [hAlen]
        exact hcol

/-- Safety of the search loop: whatever non-empty path it returns is
the trajectory of a popped safe node, so it starts at the search start
and every step of it passed `_has_collision`. -/
theorem findPathLoop_safe (start goal : Position)
    (otherRobotPaths : List (List Position)) (maxTime : Nat) :
    ∀ fuel (openSet : List AStarNode) (closedSet : List (Position × Nat)),
    (∀ n ∈ openSet, nodeSafe start otherRobotPaths n) →
    findPathLoop goal otherRobotPaths maxTime fuel openSet closedSet ≠ [] →
    (findPathLoop goal otherRobotPaths maxTime fuel openSet closedSet).head? =
      some start ∧
    pathStepsSafe otherRobotPaths
      (findPathLoop goal otherRobotPaths maxTime fuel openSet closedSet) := by
  intro fuel
  induction fuel with
  | zero =>
    intro openSet closedSet _ hne
    simp [findPathLoop] at hne
  | succ fuel ih =>
    intro openSet closedSet hopen hne
    cases openSet with
    | nil => simp [findPathLoop, heapPop] at hne
    | cons cur rest =>
      have hcur := hopen cur (by simp)
      have hrest : ∀ n ∈ rest, nodeSafe start otherRobotPaths n :=
        fun n hn => hopen n (by simp [hn])
      simp only [findPathLoop, heapPop] at hne ⊢
      split_ifs at hne ⊢ with hgoal hclosed htime
      · exact ⟨hcur.1, hcur.2.2⟩
      · exact ih rest closedSet hrest hne
      · exact ih rest ((cur.position, cur.time) :: closedSet) hrest hne
      · refine ih _ ((cur.position, cur.time) :: closedSet) ?_ hne
        intro n hn
        rcases mem_foldl_heapPush.mp hn with h | h
        · exact nodeSafe_expandChildren hcur h
        · exact hrest n h

/-- Any non-empty result of `find_path` starts at `start`, and every
one of its steps passed `_has_collision` against the supplied obstacle
paths. -/
theorem findPath_safe (start goal : Position)
    (otherRobotPaths : List (List Position)) (maxTime fuel : Nat)
    (hne : findPath start goal otherRobotPaths maxTime fuel ≠ []) :
    (findPath start goal otherRobotPaths maxTime fuel).head? = some start ∧
    pathStepsSafe otherRobotPaths
      (findPath start goal otherRobotPaths maxTime fuel) := by
  refine findPathLoop_safe start goal otherRobotPaths maxTime fuel _ _ ?_ hne
  intro n hn
  rw [List.mem_singleton] at hn
  subst hn
  refine ⟨by simp, by simp, ?_⟩
  intro t h1 h2
  simp only [List.nil_append, List.length_cons, List.length_nil] at h2
  omega

/-- Two committed paths are compatible when, at every common time
`t ≥ 1`, they neither share a vertex nor swap along an edge. -/
def pathsCompatible (p q : List Position) : Prop :=
  ∀ t, 1 ≤ t → t < p.length → t < q.length →
    p.getD t ⟨0, 0⟩ ≠ q.getD t ⟨0, 0⟩ ∧
    ¬(p.getD (t - 1) ⟨0, 0⟩ = q.getD t ⟨0, 0⟩ ∧
      p.getD t ⟨0, 0⟩ = q.getD (t - 1) ⟨0, 0⟩)

/-- Compatibility is symmetric: both the vertex condition and the swap
condition are invariant under exchanging the two paths. -/
theorem pathsCompatible_symm {p q : List Position}
    (h : pathsCompatible p q) : pathsCompatible q p := by
  intro t h1 h2 h3
  obtain ⟨hv, hs⟩ := h t h1 h3 h2
  exact ⟨hv.symm, fun ⟨e1, e2⟩ => hs ⟨e2.symm, e1.symm⟩⟩

/-- A path of length at most 1 is compatible with everything: there is
no common time `t ≥ 1`. -/
theorem pathsCompatible_of_short {p q : List Position}
    (h : p.length ≤ 1 ∨ q.length ≤ 1) : pathsCompatible p q := by
  intro t h1 h2 h3
  omega

/-- A path all of whose steps passed `_has_collision` against an
obstacle set is compatible with every path of that set. -/
theorem pathsCompatible_of_stepsSafe {otherRobotPaths : List (List Position)}
    {p q : List Position} (hq : q ∈ otherRobotPaths)
    (hsafe : pathStepsSafe otherRobotPaths p) : pathsCompatible p q := by
  intro t h1 h2 h3
  have hcol := hsafe t h1 h2
  rw [hasCollision, List.any_eq_false] at hcol
  have hq2 := hcol q hq
  simp only [Bool.or_eq_true, Bool.and_eq_true, beq_iff_eq, decide_eq_true_eq,
    not_or, not_and] at hq2
  have e1 : q[t]? = some (q.getD t ⟨0, 0⟩) := by
    rw [List.getD_eq_getElem _ _ h3]
    exact List.getElem?_eq_getElem h3
  have e2 : q[t - 1]? = some (q.getD (t - 1) ⟨0, 0⟩) := by
    have h4 : t - 1 < q.length := by omega
    rw [List.getD_eq_getElem _ _ h4]
    exact List.getElem?_eq_getElem h4
  refine ⟨?_, ?_⟩
  · intro he
    exact hq2.1 (by rw [e1, he])
  · rintro ⟨es1, es2⟩
    have hc := hq2.2 ⟨by omega, by rw [e1, ← es1]⟩
    exact hc (by rw [e2, ← es2])

/-- `environment.Robot`, restricted to the fields
`solve_multi_robot_path` reads: `id`, `position` (the start of the
robot's next path) and `priority` (lower number = planned first).  The
remaining Python fields (`path`, `path_index`, `status`, `is_waiting`)
are never read by the solver. -/
structure Robot where
  id : Int
  position : Position
  priority : Int
deriving DecidableEq, Repr

/-- The sort key of `sorted(robots, key=lambda r: r.priority)`. -/
def prioLE (a b : Robot) : Prop :=
  a.priority ≤ b.priority

instance : DecidableRel prioLE :=
  fun a b => by unfold prioLE; infer_instance

instance : IsTotal Robot prioLE :=
  ⟨fun a b => Int.le_total a.priority b.priority⟩

instance : IsTrans Robot prioLE :=
  ⟨fun _ _ _ hab hbc => Int.le_trans hab hbc⟩

/-- The body of the prioritized planning loop of
`solve_multi_robot_path`: state is the pair of the `paths` dict (as an
association list, later writes consed at the front) and the
`robot_paths_list` obstacle list.  Robots whose id has no goal are
skipped; a found path is stored and appended to the obstacle list; on
failure the robot is mapped to the stay-in-place path
`[robot.position]`, which is not added to the obstacle list.
`find_path` runs with its default `max_time = 50`. -/
def solveLoop (goals : Int → Option Position) (fuel : Nat) :
    List Robot → List (Int × List Position) × List (List Position) →
    List (Int × List Position) × List (List Position)
  | [], s => s
  | r :: rest, s =>
    match goals r.id with
    | none => solveLoop goals fuel rest s
    | some g =>
      let p := findPath r.position g s.2 50 fuel
      if p = [] then solveLoop goals fuel rest ((r.id, [r.position]) :: s.1, s.2)
      else solveLoop goals fuel rest ((r.id, p) :: s.1, s.2 ++ [p])

/-- `MAPFSolver.solve_multi_robot_path`: sort robots by ascending
priority with Python's stable `sorted` (embedded as the stable
insertion sort on the priority key), then plan each in turn against the
already committed paths. -/
def solveMultiRobotPath (robots : List Robot) (goals : Int → Option Position)
    (fuel : Nat) : List (Int × List Position) :=
  (solveLoop goals fuel (List.insertionSort prioLE robots) ([], [])).1

/-- The planner-state invariant: every stored path is non-empty, every
stored path is either the one-entry fallback or a committed obstacle
path, and stored paths are pairwise vertex- and swap-compatible at all
common times `t ≥ 1`. -/
def solveInv (s : List (Int × List Position) × List (List Position)) : Prop :=
  (∀ e ∈ s.1, e.2 ≠ []) ∧
  (∀ e ∈ s.1, e.2.length = 1 ∨ e.2 ∈ s.2) ∧
  s.1.Pairwise fun a b => pathsCompatible a.2 b.2

/-- The planning loop preserves the planner-state invariant. -/
theorem solveLoop_inv (goals : Int → Option Position) (fuel : Nat) :
    ∀ (rem : List Robot) (s : List (Int × List Position) × List (List Position)),
    solveInv s → solveInv (solveLoop goals fuel rem s) := by
  intro rem
  induction rem with
  | nil => intro s hs; simpa [solveLoop] using hs
  | cons r rest ih =>
    intro s hs
    obtain ⟨hne, hmem, hpw⟩ := hs
    rw [solveLoop]
    cases hg : goals r.id with
    | none => exact ih s ⟨hne, hmem, hpw⟩
    | some g =>
      simp only
      by_cases hp : findPath r.position g s.2 50 fuel = []
      · rw [if_pos hp]
        refine ih _ ⟨?_, ?_, ?_⟩
        · intro e he
          rcases List.mem_cons.mp he with rfl | he2
          · simp
          · exact hne e he2
        · intro e he
          rcases List.mem_cons.mp he with rfl | he2
          · left; rfl
          · exact hmem e he2
        · refine List.pairwise_cons.mpr ⟨?_, hpw⟩
          intro o _
          exact pathsCompatible_of_short (Or.inl (by simp))
      · rw [if_neg hp]
        have hsafe := (findPath_safe r.position g s.2 50 fuel hp).2
        refine ih _ ⟨?_, ?_, ?_⟩
        · intro e he
          rcases List.mem_cons.mp he with rfl | he2
          · exact hp
          · exact hne e he2
        · intro e he
          rcases List.mem_cons.mp he with rfl | he2
          · right; exact List.mem_append_right _ (by simp)
          · rcases hmem e he2 with h1 | h1
            · left; exact h1
            · right; exact List.mem_append_left _ h1
        · refine List.pairwise_cons.mpr ⟨?_, hpw⟩
          intro o ho
          rcases hmem o ho with h1 | h1
          · exact pathsCompatible_of_short (Or.inr (by omega))
          · exact pathsCompatible_of_stepsSafe h1 hsafe

/-- With pairwise-distinct start positions among the robots still to be
planned, the stored paths keep pairwise-distinct first entries: every
committed or fallback path starts at its own robot's start position. -/
theorem solveLoop_heads (goals : Int → Option Position) (fuel : Nat) :
    ∀ (rem : List Robot) (s : List (Int × List Position) × List (List Position)),
    rem.Pairwise (fun a b => a.position ≠ b.position) →
    (∀ e ∈ s.1, ∀ r ∈ rem, e.2.head? ≠ some r.position) →
    s.1.Pairwise (fun a b => a.2.head? ≠ b.2.head?) →
    (solveLoop goals fuel rem s).1.Pairwise fun a b => a.2.head? ≠ b.2.head? := by
  intro rem
  induction rem with
  | nil => intro s _ _ hpw; simpa [solveLoop] using hpw
  | cons r rest ih =>
    intro s hrem hheads hpw
    have hrem2 := List.pairwise_cons.mp hrem
    rw [solveLoop]
    cases hg : goals r.id with
    | none =>
      refine ih s hrem2.2 ?_ hpw
      intro e he r2 hr2
      exact hheads e he r2 (by simp [hr2])
    | some g =>
      simp only
      by_cases hp : findPath r.position g s.2 50 fuel = []
      · rw [if_pos hp]
        refine ih _ hrem2.2 ?_ ?_
        · intro e he r2 hr2
          rcases List.mem_cons.mp he with rfl | he2
          · simp only [List.head?_cons, ne_eq, Option.some.injEq]
            exact hrem2.1 r2 hr2
          · exact hheads e he2 r2 (by simp [hr2])
        · refine List.pairwise_cons.mpr ⟨?_, hpw⟩
          intro o ho
          have := hheads o ho r (by simp)
          simp only [List.head?_cons]
          exact fun hh => this (hh.symm)
      · rw [if_neg hp]
        have hhead := (findPath_safe r.position g s.2 50 fuel hp).1
        refine ih _ hrem2.2 ?_ ?_
        · intro e he r2 hr2
          rcases List.mem_cons.mp he with rfl | he2
          · rw [hhead]
            simp only [ne_eq, Option.some.injEq]
            exact hrem2.1 r2 hr2
          · exact hheads e he2 r2 (by simp [hr2])
        · refine List.pairwise_cons.mpr ⟨?_, hpw⟩
          intro o ho
          have := hheads o ho r (by simp)
          rw [hhead]
          exact fun hh => this (hh.symm)

/-- A successful `lookup` into the paths association list yields a
stored entry. -/
theorem mem_of_lookup_some {k : Int} {l : List (Int × List Position)}
    {v : List Position} (h : List.lookup k l = some v) : (k, v) ∈ l := by
  induction l with
  | nil => simp [List.lookup] at h
  | cons e t ih =>
    obtain ⟨a, b⟩ := e
    rw [List.lookup_cons] at h
    by_cases hk : (k == a) = true
    · rw [hk] at h
      simp only at h
      obtain rfl : b = v := by injection h
      obtain rfl : k = a := by rwa [beq_iff_eq] at hk
      exact List.mem_cons_self _ _
    · rw [Bool.not_eq_true] at hk
      rw [hk] at h
      simp only at h
      exact List.mem_cons_of_mem _ (ih h)

/-- C1, counterexample.  The claim asserts vertex-conflict-freedom for
*every* call of `solve_multi_robot_path`.  With two robots that share
the start cell (1, 0), the planner returns the paths
`[(1,0), (1,1)]` for robot 1 and `[(1,0)]` for robot 2 (whose search
fails start-at-goal style or trivially), and the two paths occupy the
same cell at time 0 < min(2, 1): the start state is never collision
checked, so coincident starts defeat the claim. -/
theorem c1_duplicate_starts_collide :
    List.lookup 1 (solveMultiRobotPath [⟨1, ⟨1, 0⟩, 1⟩, ⟨2, ⟨1, 0⟩, 2⟩]
        (fun i => if i = 1 then some ⟨1, 1⟩ else
          if i = 2 then some ⟨1, 0⟩ else none) 20) =
      some [⟨1, 0⟩, ⟨1, 1⟩] ∧
    List.lookup 2 (solveMultiRobotPath [⟨1, ⟨1, 0⟩, 1⟩, ⟨2, ⟨1, 0⟩, 2⟩]
        (fun i => if i = 1 then some ⟨1, 1⟩ else
          if i = 2 then some ⟨1, 0⟩ else none) 20) =
      some [⟨1, 0⟩] ∧
    ([⟨1, 0⟩, ⟨1, 1⟩] : List Position).get ⟨0, by decide⟩ =
      ([⟨1, 0⟩] : List Position).get ⟨0, by decide⟩ := by
  decide

/-- C1, amended.  Provided the robots' start positions are pairwise
distinct, any two paths returned by one `solve_multi_robot_path` pass
for different ids never share a position at any common time. -/
theorem c1_amended_vertex_conflict_free (robots : List Robot)
    (goals : Int → Option Position) (fuel : Nat)
    (hstarts : robots.Pairwise fun a b => a.position ≠ b.position)
    (i j : Int) (hij : i ≠ j) (Pi Pj : List Position)
    (hi : List.lookup i (solveMultiRobotPath robots goals fuel) = some Pi)
    (hj : List.lookup j (solveMultiRobotPath robots goals fuel) = some Pj)
    (t : Nat) (hti : t < Pi.length) (htj : t < Pj.length) :
    Pi.get ⟨t, hti⟩ ≠ Pj.get ⟨t, htj⟩ := by
  have hperm := List.perm_insertionSort prioLE robots
  have hsorted : (List.insertionSort prioLE robots).Pairwise
      fun a b => a.position ≠ b.position :=
    (hperm.pairwise_iff fun h => h.symm).mpr hstarts
  have hinv := solveLoop_inv goals fuel (List.insertionSort prioLE robots)
    ([], []) ⟨by simp, by simp, by simp⟩
  have hheads := solveLoop_heads goals fuel (List.insertionSort prioLE robots)
    ([], []) hsorted (by simp) (by simp)
  have hmi : (i, Pi) ∈ (solveLoop goals fuel
      (List.insertionSort prioLE robots) ([], [])).1 := mem_of_lookup_some hi
  have hmj : (j, Pj) ∈ (solveLoop goals fuel
      (List.insertionSort prioLE robots) ([], [])).1 := mem_of_lookup_some hj
  have hentry : ((i, Pi) : Int × List Position) ≠ (j, Pj) :=
    fun h => hij (congrArg Prod.fst h)
  cases t with
  | zero =>
    have hH : Pi.head? ≠ Pj.head? :=
      List.Pairwise.forall (fun _ _ h => h.symm) hheads hmi hmj hentry
    intro he
    apply hH
    rw [List.head?_eq_getElem?, List.head?_eq_getElem?,
      List.getElem?_eq_getElem hti, List.getElem?_eq_getElem htj]
    simpa using he
  | succ n =>
    have hC : pathsCompatible Pi Pj :=
      List.Pairwise.forall (fun _ _ h => pathsCompatible_symm h) hinv.2.2
        hmi hmj hentry
    have hv := (hC (n + 1) (by omega) hti htj).1
    rw [List.getD_eq_getElem _ _ hti, List.getD_eq_getElem _ _ htj] at hv
    simpa using hv

/-- Witness for `c1_amended_vertex_conflict_free`: two robots starting
at distinct corridor cells get non-crossing paths; at time 0 their
cells differ. -/
theorem c1_amended_witness :
    ([⟨1, 0⟩, ⟨1, 1⟩] : List Position).get ⟨0, by decide⟩ ≠
      ([⟨1, 4⟩, ⟨1, 3⟩] : List Position).get ⟨0, by decide⟩ :=
  c1_amended_vertex_conflict_free
    [⟨1, ⟨1, 0⟩, 1⟩, ⟨2, ⟨1, 4⟩, 2⟩]
    (fun i => if i = 1 then some ⟨1, 1⟩ else
      if i = 2 then some ⟨1, 3⟩ else none) 20
    (by decide) 1 2 (by decide) [⟨1, 0⟩, ⟨1, 1⟩] [⟨1, 4⟩, ⟨1, 3⟩]
    (by decide) (by decide) 0 (by decide) (by decide)

/-- C2.  Any two paths returned by one `solve_multi_robot_path` pass
for different ids never swap: at no time `t ≥ 1` within both paths does
one path move from the other's time-`t` cell into the other's
time-`(t-1)` cell. -/
theorem c2_swap_conflict_free (robots : List Robot)
    (goals : Int → Option Position) (fuel : Nat)
    (i j : Int) (hij : i ≠ j) (Pi Pj : List Position)
    (hi : List.lookup i (solveMultiRobotPath robots goals fuel) = some Pi)
    (hj : List.lookup j (solveMultiRobotPath robots goals fuel) = some Pj)
    (t : Nat) (ht1 : 1 ≤ t) (hti : t < Pi.length) (htj : t < Pj.length) :
    ¬(Pi.get ⟨t - 1, by omega⟩ = Pj.get ⟨t, htj⟩ ∧
      Pi.get ⟨t, hti⟩ = Pj.get ⟨t - 1, by omega⟩) := by
  have hinv := solveLoop_inv goals fuel (List.insertionSort prioLE robots)
    ([], []) ⟨by simp, by simp, by simp⟩
  have hmi : (i, Pi) ∈ (solveLoop goals fuel
      (List.insertionSort prioLE robots) ([], [])).1 := mem_of_lookup_some hi
  have hmj : (j, Pj) ∈ (solveLoop goals fuel
      (List.insertionSort prioLE robots) ([], [])).1 := mem_of_lookup_some hj
  have hentry : ((i, Pi) : Int × List Position) ≠ (j, Pj) :=
    fun h => hij (congrArg Prod.fst h)
  have hC : pathsCompatible Pi Pj :=
    List.Pairwise.forall (fun _ _ h => pathsCompatible_symm h) hinv.2.2
      hmi hmj hentry
  have hs := (hC t ht1 hti htj).2
  rw [List.getD_eq_getElem _ _ hti, List.getD_eq_getElem _ _ htj,
    List.getD_eq_getElem _ _ (show t - 1 < Pi.length by omega),
    List.getD_eq_getElem _ _ (show t - 1 < Pj.length by omega)] at hs
  simpa using hs

/-- Witness for `c2_swap_conflict_free` at the concrete two-robot
instance, time 1. -/
theorem c2_witness :
    ¬(([⟨1, 0⟩, ⟨1, 1⟩] : List Position).get ⟨0, by decide⟩ =
        ([⟨1, 4⟩, ⟨1, 3⟩] : List Position).get ⟨1, by decide⟩ ∧
      ([⟨1, 0⟩, ⟨1, 1⟩] : List Position).get ⟨1, by decide⟩ =
        ([⟨1, 4⟩, ⟨1, 3⟩] : List Position).get ⟨0, by decide⟩) :=
  c2_swap_conflict_free
    [⟨1, ⟨1, 0⟩, 1⟩, ⟨2, ⟨1, 4⟩, 2⟩]
    (fun i => if i = 1 then some ⟨1, 1⟩ else
      if i = 2 then some ⟨1, 3⟩ else none) 20
    1 2 (by decide) [⟨1, 0⟩, ⟨1, 1⟩] [⟨1, 4⟩, ⟨1, 3⟩]
    (by decide) (by decide) 1 (by decide) (by decide) (by decide)

/-- C5, counterexample.  The claim says a robot whose search fails is
left without a path and reported as unplanned.  With the single robot
7 at the isolated cell (2, 0) (no moves exist from it) and goal (1, 0),
the search fails, yet the planner returns the fabricated stay-in-place
path `[(2, 0)]` for robot 7 — an entry indistinguishable from a
successful trivial path, not an unplanned marker. -/
theorem c5_failure_returns_stay_path :
    findPath ⟨2, 0⟩ ⟨1, 0⟩ [] 50 5 = [] ∧
    List.lookup 7 (solveMultiRobotPath [⟨7, ⟨2, 0⟩, 1⟩]
        (fun i => if i = 7 then some ⟨1, 0⟩ else none) 5) =
      some [⟨2, 0⟩] := by
  decide

/-- C5, amended.  When the space-time search fails for a robot, the
planner records the single-element stay-in-place path
`[robot.position]` for it (rather than omitting it or reporting a
distinguished failure), and commits nothing for it to the obstacle
list, so later, lower-priority robots are planned against an unchanged
obstacle set. -/
theorem c5_amended_failure_keeps_obstacles (goals : Int → Option Position)
    (fuel : Nat) (r : Robot) (rest : List Robot)
    (s : List (Int × List Position) × List (List Position)) (g : Position)
    (hg : goals r.id = some g)
    (hp : findPath r.position g s.2 50 fuel = []) :
    solveLoop goals fuel (r :: rest) s =
      solveLoop goals fuel rest ((r.id, [r.position]) :: s.1, s.2) := by
  rw [solveLoop, hg]
  simp only
  rw [if_pos hp]

/-- Witness for `c5_amended_failure_keeps_obstacles` at the concrete
failing robot 7. -/
theorem c5_amended_witness :
    solveLoop (fun i => if i = 7 then some ⟨1, 0⟩ else none) 5
        [⟨7, ⟨2, 0⟩, 1⟩] ([], []) =
      solveLoop (fun i => if i = 7 then some ⟨1, 0⟩ else none) 5 []
        ([(7, [⟨2, 0⟩])], []) :=
  c5_amended_failure_keeps_obstacles (fun i => if i = 7 then some ⟨1, 0⟩ else none)
    5 ⟨7, ⟨2, 0⟩, 1⟩ [] ([], []) ⟨1, 0⟩ (by decide) (by decide)

/-- C6, counterexample.  The claim says failures are returned as
distinguished per-agent kinds (`InvalidStart` vs `NoPathWithinHorizon`
vs `SearchNodeCapExceeded`).  The code has no such kinds: a search from
the invalid start (2, 0) and a search cut off by a zero horizon return
the *identical* undistinguished value `[]`, so callers cannot tell the
failure causes apart (and no node cap exists in `solver.py` at all). -/
theorem c6_failure_kinds_collapse :
    findPath ⟨2, 0⟩ ⟨1, 0⟩ [] 50 5 = [] ∧
    findPath ⟨1, 0⟩ ⟨0, 1⟩ [] 0 5 = [] ∧
    findPath ⟨2, 0⟩ ⟨1, 0⟩ [] 50 5 = findPath ⟨1, 0⟩ ⟨0, 1⟩ [] 0 5 := by
  decide

/-- The planning loop never removes a stored path: a robot id that has
an entry keeps (some) entry through all later iterations. -/
theorem solveLoop_lookup_preserved (goals : Int → Option Position) (fuel : Nat) :
    ∀ (rem : List Robot) (s : List (Int × List Position) × List (List Position))
      (k : Int), List.lookup k s.1 ≠ none →
      List.lookup k (solveLoop goals fuel rem s).1 ≠ none := by
  intro rem
  induction rem with
  | nil => intro s k h; simpa [solveLoop] using h
  | cons r rest ih =>
    intro s k h
    rw [solveLoop]
    cases hg : goals r.id with
    | none => exact ih s k h
    | some g =>
      simp only
      by_cases hp : findPath r.position g s.2 50 fuel = []
      · rw [if_pos hp]
        refine ih _ k ?_
        rw [List.lookup_cons]
        cases hk : k == r.id
        · simpa using h
        · simp
      · rw [if_neg hp]
        refine ih _ k ?_
        rw [List.lookup_cons]
        cases hk : k == r.id
        · simpa using h
        · simp

/-- Processing a concatenated robot list is processing the two parts in
sequence. -/
theorem solveLoop_append (goals : Int → Option Position) (fuel : Nat) :
    ∀ (A B : List Robot) (s : List (Int × List Position) × List (List Position)),
    solveLoop goals fuel (A ++ B) s =
      solveLoop goals fuel B (solveLoop goals fuel A s) := by
  intro A
  induction A with
  | nil => intro B s; rfl
  | cons r A ih =>
    intro B s
    rw [List.cons_append, solveLoop, solveLoop]
    cases hg : goals r.id with
    | none => exact ih B s
    | some g =>
      simp only
      by_cases hp : findPath r.position g s.2 50 fuel = []
      · rw [if_pos hp, if_pos hp]
        exact ih B _
      · rw [if_neg hp, if_neg hp]
        exact ih B _

/-- C6, amended.  Search failures are returned as plain empty results
with no distinguished kinds (`find_path` returns `[]`, the planner maps
the robot to its stay-in-place path); nothing is raised, and a failure
for one robot never aborts the pass: every robot whose id has a goal
ends up with an entry in the returned dict, whatever happened to the
other robots. -/
theorem c6_amended_failures_returned_no_abort (robots : List Robot)
    (goals : Int → Option Position) (fuel : Nat) (r : Robot)
    (hr : r ∈ robots) (hg : (goals r.id).isSome = true) :
    List.lookup r.id (solveMultiRobotPath robots goals fuel) ≠ none := by
  obtain ⟨g, hg2⟩ := Option.isSome_iff_exists.mp hg
  have hr2 : r ∈ List.insertionSort prioLE robots :=
    (List.mem_insertionSort prioLE).mpr hr
  obtain ⟨A, B, hAB⟩ := List.append_of_mem hr2
  unfold solveMultiRobotPath
  rw [hAB, solveLoop_append, solveLoop, hg2]
  simp only
  by_cases hp : findPath r.position g
      (solveLoop goals fuel A ([], [])).2 50 fuel = []
  · rw [if_pos hp]
    refine solveLoop_lookup_preserved goals fuel B _ r.id ?_
    rw [List.lookup_cons]
    simp
  · rw [if_neg hp]
    refine solveLoop_lookup_preserved goals fuel B _ r.id ?_
    rw [List.lookup_cons]
    simp

/-- Witness for `c6_amended_failures_returned_no_abort` on the failing
robot 7: it still receives an entry. -/
theorem c6_amended_witness :
    List.lookup 7 (solveMultiRobotPath [⟨7, ⟨2, 0⟩, 1⟩]
        (fun i => if i = 7 then some ⟨1, 0⟩ else none) 5) ≠ none :=
  c6_amended_failures_returned_no_abort [⟨7, ⟨2, 0⟩, 1⟩]
    (fun i => if i = 7 then some ⟨1, 0⟩ else none) 5 ⟨7, ⟨2, 0⟩, 1⟩
    (by decide) (by decide)

/-- Inserting a key below every element of a list places it at the
front. -/
theorem orderedInsert_of_le_all {a : Robot} {m : List Robot}
    (h : ∀ x ∈ m, prioLE a x) : List.orderedInsert prioLE a m = a :: m := by
  cases m with
  | nil => rfl
  | cons c t =>
    rw [List.orderedInsert, if_pos (h c (List.mem_cons_self c t))]

/-- Filtering commutes with ordered insertion into a sorted list:
removing elements never changes where the surviving elements sit
relative to the inserted one. -/
theorem orderedInsert_filter (keep : Robot → Bool) (a : Robot) :
    ∀ l : List Robot, l.Sorted prioLE →
    (List.orderedInsert prioLE a l).filter keep =
      if keep a then List.orderedInsert prioLE a (l.filter keep)
      else l.filter keep := by
  intro l
  induction l with
  | nil =>
    intro _
    simp only [List.orderedInsert, List.filter]
    cases hk : keep a <;> simp [hk]
  | cons b l ih =>
    intro hsort
    have hsort2 := List.pairwise_cons.mp hsort
    rw [List.orderedInsert]
    by_cases hab : prioLE a b
    · rw [if_pos hab]
      cases hka : keep a with
      | false =>
        rw [if_neg (by simp), List.filter_cons_of_neg (by simp [hka])]
      | true =>
        rw [if_pos rfl]
        rw [List.filter_cons_of_pos hka]
        cases hkb : keep b with
        | true =>
          rw [List.filter_cons_of_pos hkb, List.orderedInsert, if_pos hab]
        | false =>
          rw [List.filter_cons_of_neg (by simp [hkb])]
          refine (orderedInsert_of_le_all ?_).symm
          intro x hx
          have hxl : x ∈ l := List.mem_of_mem_filter hx
          exact Trans.trans hab (hsort2.1 x hxl)
    · rw [if_neg hab]
      have hba : prioLE b a := (IsTotal.total b a).resolve_right hab
      cases hkb : keep b with
      | true =>
        rw [List.filter_cons_of_pos hkb, List.filter_cons_of_pos hkb,
          ih hsort2.2]
        cases hka : keep a with
        | true =>
          rw [if_pos rfl, if_pos rfl, List.orderedInsert, if_neg hab]
        | false =>
          rw [if_neg (by simp), if_neg (by simp)]
      | false =>
        rw [List.filter_cons_of_neg (by simp [hkb]),
          List.filter_cons_of_neg (by simp [hkb]), ih hsort2.2]

/-- Filtering commutes with the stable insertion sort. -/
theorem insertionSort_filter (keep : Robot → Bool) :
    ∀ l : List Robot,
    (List.insertionSort prioLE l).filter keep =
      List.insertionSort prioLE (l.filter keep) := by
  intro l
  induction l with
  | nil => rfl
  | cons r l ih =>
    rw [List.insertionSort,
      orderedInsert_filter keep r _ (List.sorted_insertionSort prioLE l), ih]
    cases hk : keep r with
    | true =>
      rw [if_pos rfl, List.filter_cons_of_pos hk, List.insertionSort]
    | false =>
      rw [if_neg (by simp), List.filter_cons_of_neg (by simp [hk])]

/-- Robots whose ids differ from `k` never touch the entry of `k`. -/
theorem solveLoop_lookup_of_ids_ne (goals : Int → Option Position) (fuel : Nat) :
    ∀ (rem : List Robot) (s : List (Int × List Position) × List (List Position))
      (k : Int), (∀ x ∈ rem, x.id ≠ k) →
      List.lookup k (solveLoop goals fuel rem s).1 = List.lookup k s.1 := by
  intro rem
  induction rem with
  | nil => intro s k _; rfl
  | cons r rest ih =>
    intro s k hne
    have hrk : (k == r.id) = false :=
      beq_eq_false_iff_ne.mpr fun h => hne r (by simp) h.symm
    have hrest : ∀ x ∈ rest, x.id ≠ k := fun x hx => hne x (by simp [hx])
    rw [solveLoop]
    cases hg : goals r.id with
    | none => exact ih s k hrest
    | some g =>
      simp only
      by_cases hp : findPath r.position g s.2 50 fuel = []
      · rw [if_pos hp, ih _ k hrest, List.lookup_cons, hrk]
      · rw [if_neg hp, ih _ k hrest, List.lookup_cons, hrk]

/-- Two runs that agree on the state and on the robot at the head
produce the same entry for that robot's id, whatever robots follow, as
long as none of them reuses the id. -/
theorem lookup_solveLoop_cons_eq (goals : Int → Option Position) (fuel : Nat)
    (r : Robot) (X Y : List Robot)
    (s : List (Int × List Position) × List (List Position))
    (hX : ∀ x ∈ X, x.id ≠ r.id) (hY : ∀ y ∈ Y, y.id ≠ r.id) :
    List.lookup r.id (solveLoop goals fuel (r :: X) s).1 =
      List.lookup r.id (solveLoop goals fuel (r :: Y) s).1 := by
  rw [solveLoop, solveLoop]
  cases hg : goals r.id with
  | none =>
    rw [solveLoop_lookup_of_ids_ne goals fuel X s r.id hX,
      solveLoop_lookup_of_ids_ne goals fuel Y s r.id hY]
  | some g =>
    simp only
    by_cases hp : findPath r.position g s.2 50 fuel = []
    · rw [if_pos hp, if_pos hp,
        solveLoop_lookup_of_ids_ne goals fuel X _ r.id hX,
        solveLoop_lookup_of_ids_ne goals fuel Y _ r.id hY]
    · rw [if_neg hp, if_neg hp,
        solveLoop_lookup_of_ids_ne goals fuel X _ r.id hX,
        solveLoop_lookup_of_ids_ne goals fuel Y _ r.id hY]

/-- C7.  Priority noninterference: removing any set of robots of
strictly lower priority (larger priority number) than robot `r` from
the input — all else equal — does not change the path
`solve_multi_robot_path` returns for `r`.  Robots are identified by
their ids, so the robot list is assumed to carry pairwise-distinct ids. -/
theorem c7_priority_noninterference (robots : List Robot)
    (goals : Int → Option Position) (fuel : Nat) (keep : Robot → Bool)
    (r : Robot) (hr : r ∈ robots) (hkeep : keep r = true)
    (hlower : ∀ x ∈ robots, keep x = false → r.priority < x.priority)
    (hids : (robots.map Robot.id).Nodup) :
    List.lookup r.id (solveMultiRobotPath (robots.filter keep) goals fuel) =
      List.lookup r.id (solveMultiRobotPath robots goals fuel) := by
  have hperm := List.perm_insertionSort prioLE robots
  have hrL : r ∈ List.insertionSort prioLE robots :=
    (List.mem_insertionSort prioLE).mpr hr
  obtain ⟨A, B, hAB⟩ := List.append_of_mem hrL
  have hSorted : (List.insertionSort prioLE robots).Sorted prioLE :=
    List.sorted_insertionSort prioLE robots
  have hidsL : ((List.insertionSort prioLE robots).map Robot.id).Nodup :=
    ((hperm.map Robot.id).nodup_iff).mpr hids
  have hidsB : ∀ x ∈ B, x.id ≠ r.id := by
    rw [hAB, List.map_append, List.map_cons] at hidsL
    have h2 := List.Nodup.of_append_right hidsL
    have h3 := (List.nodup_cons.mp h2).1
    intro x hx he
    exact h3 (List.mem_map.mpr ⟨x, hx, he⟩)
  have hkeepA : ∀ a ∈ A, keep a = true := by
    intro a ha
    rw [hAB] at hSorted
    have hcross := (List.pairwise_append.mp hSorted).2.2 a ha r (by simp)
    by_contra hfalse
    have hka : keep a = false := by
      cases hkf : keep a
      · rfl
      · exact absurd hkf hfalse
    have haR : a ∈ robots :=
      hperm.mem_iff.mp (by rw [hAB]; exact List.mem_append_left _ ha)
    have hlow := hlower a haR hka
    unfold prioLE at hcross
    omega
  have hfiltL : (List.insertionSort prioLE robots).filter keep =
      A ++ r :: B.filter keep := by
    rw [hAB, List.filter_append, List.filter_eq_self.mpr hkeepA,
      List.filter_cons_of_pos hkeep]
  have hsortF : List.insertionSort prioLE (robots.filter keep) =
      A ++ r :: B.filter keep := by
    rw [← insertionSort_filter, hfiltL]
  unfold solveMultiRobotPath
  rw [hsortF, hAB, solveLoop_append, solveLoop_append]
  exact lookup_solveLoop_cons_eq goals fuel r (B.filter keep) B _
    (fun x hx => hidsB x (List.mem_of_mem_filter hx)) hidsB

/-- Witness for `c7_priority_noninterference`: dropping the
lower-priority robot 2 leaves robot 1's planned path unchanged. -/
theorem c7_witness :
    List.lookup 1 (solveMultiRobotPath
        ([⟨1, ⟨1, 0⟩, 1⟩, ⟨2, ⟨1, 4⟩, 2⟩].filter fun x => decide (x.priority ≤ 1))
        (fun i => if i = 1 then some ⟨1, 1⟩ else
          if i = 2 then some ⟨1, 3⟩ else none) 20) =
      List.lookup 1 (solveMultiRobotPath [⟨1, ⟨1, 0⟩, 1⟩, ⟨2, ⟨1, 4⟩, 2⟩]
        (fun i => if i = 1 then some ⟨1, 1⟩ else
          if i = 2 then some ⟨1, 3⟩ else none) 20) :=
  c7_priority_noninterference [⟨1, ⟨1, 0⟩, 1⟩, ⟨2, ⟨1, 4⟩, 2⟩]
    (fun i => if i = 1 then some ⟨1, 1⟩ else
      if i = 2 then some ⟨1, 3⟩ else none) 20
    (fun x => decide (x.priority ≤ 1)) ⟨1, ⟨1, 0⟩, 1⟩
    (by decide) (by decide) (by decide) (by decide)

namespace Demo

/-- `demo.ReservationTable`: `vertex_table[time][(x, y)] = agent_id`
and `edge_table[time][((x1,y1),(x2,y2))] = agent_id`, embedded as total
functions into `Option` agent ids (the `defaultdict` default being
`none`). -/
structure ReservationTable where
  vertexTable : Int → Int × Int → Option Int
  edgeTable : Int → (Int × Int) × (Int × Int) → Option Int

/-- Tables with equal components are equal. -/
theorem tableExt (t1 t2 : ReservationTable)
    (h1 : t1.vertexTable = t2.vertexTable)
    (h2 : t1.edgeTable = t2.edgeTable) : t1 = t2 := by
  cases t1
  cases t2
  simp only at h1 h2
  rw [h1, h2]

/-- `ReservationTable.is_vertex_free`: free unless a different agent
owns the cell at that time. -/
def isVertexFree (tbl : ReservationTable) (x y : Int) (time : Int)
    (agentId : Int) : Bool :=
  match tbl.vertexTable time (x, y) with
  | some owner => owner == agentId
  | none => true

/-- `ReservationTable.is_edge_free`: free unless a different agent owns
the reverse edge at that time. -/
def isEdgeFree (tbl : ReservationTable) (fromPos toPos : Int × Int)
    (time : Int) (agentId : Int) : Bool :=
  match tbl.edgeTable time (toPos, fromPos) with
  | some owner => owner == agentId
  | none => true

/-- One iteration of `reserve_path`'s loop at index position `p`, time
`t`, previous position `prev`: writes the vertex ownership, and the
edge ownership from `prev` when there is one. -/
def reserveStep (agentId : Int) (prev : Option (Int × Int)) (t : Int)
    (p : Int × Int) (tbl : ReservationTable) : ReservationTable :=
  ⟨fun t2 pos2 =>
      if t2 = t ∧ pos2 = p then some agentId else tbl.vertexTable t2 pos2,
    match prev with
    | none => tbl.edgeTable
    | some q => fun t2 e2 =>
        if t2 = t ∧ e2 = (q, p) then some agentId else tbl.edgeTable t2 e2⟩

/-- The loop of `reserve_path` over the path tail, carrying the
running time and previous position. -/
def reserveAux (agentId : Int) :
    Option (Int × Int) → Int → List (Int × Int) → ReservationTable →
    ReservationTable
  | _, _, [], tbl => tbl
  | prev, t, p :: rest, tbl =>
    reserveAux agentId (some p) (t + 1) rest (reserveStep agentId prev t p tbl)

/-- `ReservationTable.reserve_path`: reserve every `(time, position)`
along the path and every `(time, edge)` between consecutive entries,
tagged with `agent_id`. -/
def reservePath (tbl : ReservationTable) (path : List (Int × Int))
    (startTime : Int) (agentId : Int) : ReservationTable :=
  reserveAux agentId none startTime path tbl

/-- Two write steps of the same agent commute: every write stores the
same value `some agentId`. -/
theorem reserveStep_comm (a : Int) (prev1 prev2 : Option (Int × Int))
    (t1 t2 : Int) (p1 p2 : Int × Int) (tbl : ReservationTable) :
    reserveStep a prev1 t1 p1 (reserveStep a prev2 t2 p2 tbl) =
      reserveStep a prev2 t2 p2 (reserveStep a prev1 t1 p1 tbl) := by
  cases prev1 <;> cases prev2 <;>
    (refine tableExt _ _ ?_ ?_ <;> funext u v <;>
      simp only [reserveStep] <;> split_ifs <;> rfl)

/-- Repeating one write step of the same agent is a no-op. -/
theorem reserveStep_idem (a : Int) (prev : Option (Int × Int)) (t : Int)
    (p : Int × Int) (tbl : ReservationTable) :
    reserveStep a prev t p (reserveStep a prev t p tbl) =
      reserveStep a prev t p tbl := by
  cases prev <;>
    (refine tableExt _ _ ?_ ?_ <;> funext u v <;>
      simp only [reserveStep] <;> split_ifs <;> rfl)

/-- A single write step commutes with a whole reservation run of the
same agent. -/
theorem reserveStep_reserveAux_comm (a : Int) (prev : Option (Int × Int))
    (t : Int) (p : Int × Int) :
    ∀ (rest : List (Int × Int)) (prev2 : Option (Int × Int)) (t2 : Int)
      (tbl : ReservationTable),
    reserveStep a prev t p (reserveAux a prev2 t2 rest tbl) =
      reserveAux a prev2 t2 rest (reserveStep a prev t p tbl) := by
  intro rest
  induction rest with
  | nil => intro prev2 t2 tbl; rfl
  | cons q rest ih =>
    intro prev2 t2 tbl
    rw [reserveAux, reserveAux, ih, reserveStep_comm]

/-- Reserving the same path twice for the same agent leaves the table
exactly as after reserving it once. -/
theorem reserveAux_idem (a : Int) :
    ∀ (path : List (Int × Int)) (prev : Option (Int × Int)) (t : Int)
      (tbl : ReservationTable),
    reserveAux a prev t path (reserveAux a prev t path tbl) =
      reserveAux a prev t path tbl := by
  intro path
  induction path with
  | nil => intro prev t tbl; rfl
  | cons p rest ih =>
    intro prev t tbl
    rw [reserveAux, reserveAux, reserveStep_reserveAux_comm,
      reserveStep_idem, ih]

/-- C8.  `reserve_path` is idempotent per agent: reserving the same
path twice with the same start time and agent id leaves the table's
observable state — all answers of `is_vertex_free` and `is_edge_free` —
identical to reserving it once. -/
theorem c8_reserve_path_idempotent (tbl : ReservationTable)
    (path : List (Int × Int)) (startTime : Int) (agentId : Int) :
    (∀ x y time q,
      isVertexFree (reservePath (reservePath tbl path startTime agentId)
          path startTime agentId) x y time q =
        isVertexFree (reservePath tbl path startTime agentId) x y time q) ∧
    (∀ fromPos toPos time q,
      isEdgeFree (reservePath (reservePath tbl path startTime agentId)
          path startTime agentId) fromPos toPos time q =
        isEdgeFree (reservePath tbl path startTime agentId) fromPos toPos time q) := by
  rw [reservePath, reservePath, reserveAux_idem]
  exact ⟨fun _ _ _ _ => rfl, fun _ _ _ _ => rfl⟩

end Demo
